import Mathlib

/-!
Verification of the `matchit` URL router.

The repository sources embedded here are `src/params.rs` (the `Params`
parameter list with its small-size optimisation) and `src/router.rs`
(the `Router` facade). The radix-tree module `src/tree.rs` is not part
of the provided sources; its observable behaviour (the `Node::insert`,
`Node::at` and `Node::remove` operations, and the `InsertError` /
`MatchError` types) is modelled from the specification, as indicated on
each such definition.
-/

set_option autoImplicit false

namespace Matchit

/-! ## Params (embedding of `src/params.rs`) -/

/-- A single URL parameter, consisting of a key and a value
(`struct Param` in `params.rs`). -/
structure ParamP where
  key : String
  value : String
deriving DecidableEq

/-- `Param` implements `Default` with empty strings. -/
instance : Inhabited ParamP := ⟨⟨"", ""⟩⟩

/-- `const SMALL: usize = 3` in `params.rs`. -/
def SMALL : Nat := 3

/-- `enum ParamsKind`: either a small inline array with a length, or a
heap vector. The inline array `[Param; SMALL]` is modelled as a list
whose length is `SMALL` in every reachable state. -/
inductive ParamsKind
  | small (arr : List ParamP) (len : Nat)
  | large (vec : List ParamP)
deriving DecidableEq

/-- `struct Params` from `params.rs`. -/
structure Params where
  kind : ParamsKind
deriving DecidableEq

/-- `Params::new`: a small kind with a defaulted array and length 0. -/
def Params.new : Params :=
  ⟨.small (List.replicate SMALL default) 0⟩

/-- `drain_to_vec` from `Params::push`: moves every array slot into a
fresh vector (via `mem::take`) and appends the new element. The `len`
argument is only used as a capacity hint in the source. -/
def drain_to_vec (len : Nat) (elem : ParamP) (arr : List ParamP) : List ParamP :=
  let _ := len
  arr ++ [elem]

/-- `Params::push`: write into the inline array at index `len`, spilling
to the heap vector when `len == SMALL`. -/
def Params.push (p : Params) (key value : String) : Params :=
  let param : ParamP := ⟨key, value⟩
  match p.kind with
  | .small arr len =>
    if len = SMALL then ⟨.large (drain_to_vec len param arr)⟩
    else ⟨.small (arr.set len param) (len + 1)⟩
  | .large vec => ⟨.large (vec ++ [param])⟩

/-- `Params::get`: first entry among the live ones whose key matches. -/
def Params.get (p : Params) (key : String) : Option String :=
  match p.kind with
  | .small arr len => ((arr.take len).find? (fun q => q.key == key)).map ParamP.value
  | .large vec => (vec.find? (fun q => q.key == key)).map ParamP.value

/-- `Params::is_empty`. -/
def Params.isEmpty (p : Params) : Bool :=
  match p.kind with
  | .small _ len => len == 0
  | .large vec => vec.isEmpty

/-- `enum ParamsIterKind`: iterator state over either representation.
`iter::Take<slice::Iter>` over the first `len` slots is modelled as the
remaining list of entries. -/
inductive ParamsIterKind
  | small (it : List ParamP)
  | large (it : List ParamP)
deriving DecidableEq

/-- `struct ParamsIter` from `params.rs`. -/
structure ParamsIter where
  kind : ParamsIterKind
deriving DecidableEq

/-- `ParamsIter::new`: for the small kind take the first `len` slots of
the array, for the large kind iterate the whole vector. -/
def ParamsIter.new (params : Params) : ParamsIter :=
  match params.kind with
  | .small arr len => ⟨.small (arr.take len)⟩
  | .large vec => ⟨.large vec⟩

/-- `ParamsIter::next` (the `Iterator` impl): pop the next `Param` and
yield its `(key, value)` pair. -/
def ParamsIter.next : ParamsIter → Option ((String × String) × ParamsIter)
  | ⟨.small []⟩ => none
  | ⟨.small (p :: rest)⟩ => some ((p.key, p.value), ⟨.small rest⟩)
  | ⟨.large []⟩ => none
  | ⟨.large (p :: rest)⟩ => some ((p.key, p.value), ⟨.large rest⟩)

/-- The full sequence of pairs produced by repeatedly calling
`ParamsIter.next` (justified by `ParamsIter.toList_eq_next`). -/
def ParamsIter.toList (it : ParamsIter) : List (String × String) :=
  match it.kind with
  | .small l => l.map (fun p => (p.key, p.value))
  | .large l => l.map (fun p => (p.key, p.value))

/-- The live entries of a `Params`, in order: the first `len` slots for
the small kind, the whole vector for the large kind. -/
def Params.list (p : Params) : List ParamP :=
  match p.kind with
  | .small arr len => arr.take len
  | .large vec => vec

/-- Representation invariant of reachable `Params` states: a small kind
has a full-size backing array and a length within bounds. -/
def Params.wf (p : Params) : Prop :=
  match p.kind with
  | .small arr len => arr.length = SMALL ∧ len ≤ SMALL
  | .large _ => True

/-- Whether a `Params` is in the heap (`Large`) representation. -/
def Params.isLarge (p : Params) : Bool :=
  match p.kind with
  | .small _ _ => false
  | .large _ => true

/-- The inline length when in the small representation is within bounds. -/
def Params.smallLenOk (p : Params) : Prop :=
  match p.kind with
  | .small _ len => len ≤ SMALL
  | .large _ => True

/-- Push a whole sequence of `(key, value)` pairs, left to right. -/
def pushAll : Params → List (String × String) → Params
  | p, [] => p
  | p, kv :: rest => pushAll (Params.push p kv.1 kv.2) rest

/-! ## Radix-tree core, modelled from the specification

`src/tree.rs` is not among the provided sources, so the tree is
modelled at its interface from spec sections 3, 4.1-4.3 and 7: a set of
registered routes, where matching performs an exhaustive
priority-ordered search (static segments before a parameter before a
catch-all at every divergence point, per invariants 2 and 5 and the
exhaustive-backtracking requirement of section 4.2). Patterns follow
the documented syntax: `/`-separated segments, `{name}` a one-segment
parameter, `{*name}` a trailing catch-all. Policy choices the spec
leaves open: a catch-all requires a non-empty remaining segment list
(so `/files/{*r}` does not match `/files`) but the captured text may be
empty (path `/files/`); the `Malformed`-class insert validation checks
that a catch-all is the final segment. -/

/-- One segment of a parsed route pattern.
Modelled from the spec: the three segment kinds of section 3. -/
inductive Seg
  | static (s : List Char)
  | param (name : List Char)
  | catchAll (name : List Char)
deriving DecidableEq

/-- Split a character list at `/` separators, keeping empty segments;
`acc` holds the (reversed) characters of the current segment. -/
def splitSegsAux : List Char → List Char → List (List Char)
  | acc, [] => [acc.reverse]
  | acc, c :: cs =>
    if c = '/' then acc.reverse :: splitSegsAux [] cs
    else splitSegsAux (c :: acc) cs

/-- The `/`-separated segments of a path or pattern.
Modelled from the spec: "segments separated by `/`" (section 6). -/
def splitPath (p : List Char) : List (List Char) :=
  splitSegsAux [] p

/-- Parse one pattern segment: `{*name}` is a catch-all, `{name}` a
parameter, anything else static text.
Modelled from the spec: the pattern syntax of section 6. -/
def parseSeg (s : List Char) : Seg :=
  match s with
  | '{' :: '*' :: rest => .catchAll (rest.takeWhile (fun c => ¬ c = '}'))
  | '{' :: rest => .param (rest.takeWhile (fun c => ¬ c = '}'))
  | _ => .static s

/-- Parse a whole route pattern into segments.
Modelled from the spec: pattern syntax of sections 4.1 and 6. -/
def parsePattern (p : List Char) : List Seg :=
  (splitPath p).map parseSeg

/-- Rejoin path segments with `/`, used for the captured text of a
catch-all (which "consumes the remainder of the path, separators
included", section 3). -/
def joinSegs : List (List Char) → List Char
  | [] => []
  | [s] => s
  | s :: rest => s ++ '/' :: joinSegs rest

/-- Parameter pairs as returned by a tree match: `(name, value)` in
left-to-right path order (section 3, `Params`). -/
abbrev ParamsL : Type := List (List Char × List Char)

/-- Match a parsed pattern against the segments of a path, returning
the extracted parameters on success.
Modelled from the spec: section 4.2 steps 1, 4 and 5 — static segments
compare literally, a parameter consumes exactly one non-empty segment,
a terminal catch-all consumes the whole non-empty remainder. -/
def segsMatch : List Seg → List (List Char) → Option ParamsL
  | [], [] => some []
  | .static s :: ps, seg :: rest => if s = seg then segsMatch ps rest else none
  | .param n :: ps, seg :: rest =>
    if seg = [] then none
    else (segsMatch ps rest).map (fun qs => (n, seg) :: qs)
  | [.catchAll n], seg :: rest => some [(n, joinSegs (seg :: rest))]
  | _, _ => none

/-- A registered route: its parsed pattern and the stored value.
Modelled from the spec: a terminal node's pattern and value. -/
structure Route (α : Type) where
  segs : List Seg
  value : α
deriving DecidableEq

/-- The tree contents, modelled from the spec as the set (list) of
registered routes; `Node::default()` is the empty tree. -/
abbrev NodeT (α : Type) : Type := List (Route α)

/-- Priority rank of a segment kind: static children are tried before
the parameter child, and a catch-all comes last (spec invariants 2 and
5, and section 4.2 step 3). -/
def rank : Seg → Nat
  | .static _ => 0
  | .param _ => 1
  | .catchAll _ => 2

/-- `better p q`: the depth-first search of section 4.2 reaches a route
with segments `p` strictly before one with segments `q` — at the first
position where the kinds differ, `p` has the lower-ranked kind.
Modelled from the spec: child ordering of invariant 5 plus exhaustive
backtracking (section 4.2 step 6). -/
def better : List Seg → List Seg → Bool
  | [], [] => false
  | [], _ :: _ => true
  | _ :: _, [] => false
  | p :: ps, q :: qs =>
    if rank p < rank q then true
    else if rank q < rank p then false
    else better ps qs

/-- All routes matching a path, paired with their extracted parameters. -/
def matchersOf {α : Type} (r : NodeT α) (path : List (List Char)) :
    List (Route α × ParamsL) :=
  r.filterMap (fun rt => (segsMatch rt.segs path).map (fun ps => (rt, ps)))

/-- Keep the best candidate seen so far, replacing it only by a
strictly better one (so the leftmost of equally-ranked candidates
wins). -/
def pickBestAux {α : Type} :
    Route α × ParamsL → List (Route α × ParamsL) → Route α × ParamsL
  | b, [] => b
  | b, c :: cs => pickBestAux (if better c.1.segs b.1.segs then c else b) cs

/-- The match the depth-first search returns: the highest-priority
matching route, or `none` when nothing matches. -/
def pickBest {α : Type} : List (Route α × ParamsL) → Option (Route α × ParamsL)
  | [] => none
  | x :: xs => some (pickBestAux x xs)

/-- `MatchError`, modelled from the spec (section 7): not-found,
optionally annotated with the trailing-slash-redirect hint. -/
structure MatchError where
  tsr : Bool
deriving DecidableEq

/-- `InsertError` discriminants, modelled from the spec (section 7):
the `Conflict` class and the `Malformed` class (catch-all not in final
position). -/
inductive InsertError
  | conflict
  | invalidCatchAll
deriving DecidableEq

/-- The path with its trailing slash toggled: the "slash-insensitive
variant" of section 7. -/
def toggleSlash (p : List Char) : List Char :=
  if p.getLast? = some '/' then p.dropLast else p ++ ['/']

/-- `Node::at`, modelled from the spec (section 4.2): the
priority-ordered exhaustive search, with the trailing-slash hint set
exactly when the slash-toggled path would have matched. -/
def nodeAt {α : Type} (r : NodeT α) (path : List Char) :
    Except MatchError (α × ParamsL) :=
  match pickBest (matchersOf r (splitPath path)) with
  | some (rt, ps) => .ok (rt.value, ps)
  | none => .error ⟨(pickBest (matchersOf r (splitPath (toggleSlash path)))).isSome⟩

/-- Is any catch-all segment in final position only?
Modelled from the spec: "a catch-all segment that is not the final
segment of the pattern -> Malformed" (section 4.1). -/
def catchAllLast : List Seg → Bool
  | [] => true
  | .catchAll _ :: rest => rest.isEmpty
  | _ :: rest => catchAllLast rest

/-- Is a segment a wildcard (parameter or catch-all)? -/
def isWild : Seg → Bool
  | .static _ => false
  | _ => true

/-- Is a segment a catch-all? -/
def isCatch : Seg → Bool
  | .catchAll _ => true
  | _ => false

/-- Do two patterns conflict at a shared tree position?
Modelled from the spec: section 4.1 step 4 and invariant 2 — after an
identical leading run of segments, two differing wildcards (different
kind or bound name) conflict, and a catch-all cannot share its
position with any differing sibling ("a catch-all child must be the
only child"). -/
def conflictSegs : List Seg → List Seg → Bool
  | p :: ps, q :: qs =>
    if p = q then conflictSegs ps qs
    else (isWild p && isWild q) || isCatch p || isCatch q
  | _, _ => false

/-- `Node::insert`, modelled from the spec (section 4.1): reject a
malformed catch-all position, a duplicate route, or a wildcard
conflict; otherwise register the route. The tree is returned unchanged
on every failure (section 7). -/
def nodeInsert {α : Type} (r : NodeT α) (pat : List Char) (v : α) :
    Except InsertError Unit × NodeT α :=
  if catchAllLast (parsePattern pat) = false then (.error .invalidCatchAll, r)
  else if r.any (fun rt => decide (rt.segs = parsePattern pat)) then (.error .conflict, r)
  else if r.any (fun rt => conflictSegs rt.segs (parsePattern pat)) then (.error .conflict, r)
  else (.ok (), r ++ [⟨parsePattern pat, v⟩])

/-- `Node::remove` on parsed segments, modelled from the spec (section
4.3): locate the route registered under exactly this pattern, detach
and return its value; return `none` and leave the tree unchanged when
no such route exists. -/
def nodeRemoveSegs {α : Type} : NodeT α → List Seg → Option α × NodeT α
  | [], _ => (none, [])
  | rt :: rest, segs =>
    if rt.segs = segs then (some rt.value, rest)
    else
      let res := nodeRemoveSegs rest segs
      (res.1, rt :: res.2)

/-- `Node::remove`, modelled from the spec: patterns are traversed "as
insertion does (matching literal pattern text and wildcard markers)". -/
def nodeRemove {α : Type} (r : NodeT α) (pat : List Char) : Option α × NodeT α :=
  nodeRemoveSegs r (parsePattern pat)

/-! ## Router facade (embedding of `src/router.rs`) -/

/-- `struct Router<T> { root: Node<T> }`. -/
structure RouterS (α : Type) where
  root : NodeT α
deriving DecidableEq

/-- `Router::new` / `Router::default`: a default (empty) root node. -/
def RouterS.new {α : Type} : RouterS α := ⟨[]⟩

/-- `struct Match`: the registered value and the URL parameters
returned by a successful lookup. -/
structure MatchR (V : Type) where
  value : V
  params : ParamsL
deriving DecidableEq

/-- `Router::insert`: delegates to `Node::insert` on the root. -/
def RouterS.insert {α : Type} (r : RouterS α) (route : List Char) (v : α) :
    Except InsertError Unit × RouterS α :=
  let res := nodeInsert r.root route v
  (res.1, ⟨res.2⟩)

/-- `Router::at` (named `atPath` here because `at` is reserved):
delegates to `Node::at` on the root and wraps the result in a `Match`,
exposing the stored value through a shared reference. -/
def RouterS.atPath {α : Type} (r : RouterS α) (path : List Char) :
    Except MatchError (MatchR α) :=
  match nodeAt r.root path with
  | .ok (v, ps) => .ok ⟨v, ps⟩
  | .error e => .error e

/-- `Router::at_mut`: delegates to the same `Node::at` on the root and
wraps the result in a `Match`, exposing the stored value through an
exclusive reference. -/
def RouterS.atPathMut {α : Type} (r : RouterS α) (path : List Char) :
    Except MatchError (MatchR α) :=
  match nodeAt r.root path with
  | .ok (v, ps) => .ok ⟨v, ps⟩
  | .error e => .error e

/-- `Router::remove`: delegates to `Node::remove` on the root. -/
def RouterS.removePath {α : Type} (r : RouterS α) (pat : List Char) :
    Option α × RouterS α :=
  let res := nodeRemove r.root pat
  (res.1, ⟨res.2⟩)

/-- The characters of a string literal, used to state concrete routes
and paths. -/
def strChars (s : String) : List Char := s.data

/-- Is a segment a static (literal) one? -/
def isStatic : Seg → Bool
  | .static _ => true
  | _ => false

/-- The router holding `/users/{id} -> 1` inserted before
`/users/new -> 2`. -/
def usersIdFirst : RouterS Nat :=
  (((RouterS.new : RouterS Nat).insert (strChars "/users/{id}") 1).2.insert
    (strChars "/users/new") 2).2

/-- The router holding `/users/new -> 2` inserted before
`/users/{id} -> 1`. -/
def usersNewFirst : RouterS Nat :=
  (((RouterS.new : RouterS Nat).insert (strChars "/users/new") 2).2.insert
    (strChars "/users/{id}") 1).2

/-- A router registering `/foo -> 1` and `/{x}/ -> 2`: `/foo` is
registered, `/foo/` is not, yet the path `/foo/` is matched (by the
parameter route), so the lookup does not fail at all. -/
def slashRouter : RouterS Nat :=
  (((RouterS.new : RouterS Nat).insert (strChars "/foo") 1).2.insert
    (strChars "/{x}/") 2).2

/-! ## Lemmas about `Params` (src/params.rs) -/

theorem take_set_succ {β : Type} (a : β) (l : List β) : ∀ (n : Nat), n < l.length →
    (l.set n a).take (n + 1) = l.take n ++ [a] := by
  induction l with
  | nil => intro n h; simp at h
  | cons x xs ih =>
    intro n h
    cases n with
    | zero => rfl
    | succ n =>
      simp only [List.set_cons_succ, List.take_succ_cons, List.cons_append,
        List.cons.injEq, true_and]
      exact ih n (by simpa using Nat.lt_of_succ_lt_succ h)

theorem Params.wf_new : Params.new.wf :=
  ⟨List.length_replicate _ _, Nat.zero_le _⟩

theorem Params.wf_push (p : Params) (k v : String) (h : p.wf) : (p.push k v).wf := by
  obtain ⟨kind⟩ := p
  cases kind with
  | small arr len =>
    obtain ⟨hlen, hle⟩ := h
    simp only [Params.push]
    split
    · trivial
    · rename_i hne
      exact ⟨by simpa using hlen, Nat.succ_le_of_lt (Nat.lt_of_le_of_ne hle hne)⟩
  | large vec => trivial

theorem Params.list_push (p : Params) (k v : String) (h : p.wf) :
    (p.push k v).list = p.list ++ [⟨k, v⟩] := by
  obtain ⟨kind⟩ := p
  cases kind with
  | small arr len =>
    obtain ⟨hlen, hle⟩ := h
    simp only [Params.push]
    split
    · rename_i heq
      simp only [Params.list, drain_to_vec]
      rw [heq, ← hlen, List.take_length]
    · rename_i hne
      simp only [Params.list]
      exact take_set_succ _ arr len (by rw [hlen]; exact Nat.lt_of_le_of_ne hle hne)
  | large vec => rfl

theorem pushAll_wf : ∀ (l : List (String × String)) (p : Params), p.wf → (pushAll p l).wf
  | [], _, h => h
  | kv :: rest, p, h => pushAll_wf rest _ (Params.wf_push p kv.1 kv.2 h)

theorem pushAll_list : ∀ (l : List (String × String)) (p : Params), p.wf →
    (pushAll p l).list = p.list ++ l.map (fun kv => ⟨kv.1, kv.2⟩)
  | [], p, _ => by simp [pushAll]
  | kv :: rest, p, h => by
    simp only [pushAll]
    rw [pushAll_list rest _ (Params.wf_push p kv.1 kv.2 h),
      Params.list_push p kv.1 kv.2 h]
    simp

theorem Params.get_eq_list (p : Params) (k : String) :
    p.get k = (p.list.find? (fun q => q.key == k)).map ParamP.value := by
  obtain ⟨kind⟩ := p
  cases kind <;> rfl

theorem ParamsIter.new_toList (p : Params) :
    (ParamsIter.new p).toList = p.list.map (fun q => (q.key, q.value)) := by
  obtain ⟨kind⟩ := p
  cases kind <;> rfl

theorem ParamsIter.toList_eq_next (it : ParamsIter) :
    it.toList = (match it.next with | none => [] | some x => x.1 :: x.2.toList) := by
  obtain ⟨kind⟩ := it
  cases kind with
  | small l => cases l <;> rfl
  | large l => cases l <;> rfl

theorem pushAll_snoc : ∀ (l : List (String × String)) (p : Params) (x : String × String),
    pushAll p (l ++ [x]) = (pushAll p l).push x.1 x.2
  | [], _, _ => rfl
  | kv :: rest, p, x => pushAll_snoc rest (Params.push p kv.1 kv.2) x

theorem Params.isLarge_push_iff (p : Params) (k v : String) (h : p.wf) :
    (p.push k v).isLarge = true ↔ (p.isLarge = true ∨ p.list.length = SMALL) := by
  obtain ⟨kind⟩ := p
  cases kind with
  | small arr len =>
    obtain ⟨hlen, hle⟩ := h
    have htake : (arr.take len).length = len := by
      simp [List.length_take, hlen, Nat.min_eq_left hle]
    simp only [Params.push]
    split
    · rename_i heq
      simp [Params.isLarge, Params.list, htake, heq, hlen]
    · rename_i hne
      simp [Params.isLarge, Params.list, htake, hne]
  | large vec => simp [Params.push, Params.isLarge]

theorem isLarge_pushAll_iff (l : List (String × String)) :
    (pushAll Params.new l).isLarge = true ↔ SMALL < l.length := by
  induction l using List.reverseRecOn with
  | nil => simp [pushAll, Params.new, Params.isLarge, SMALL]
  | append_singleton l x ih =>
    rw [pushAll_snoc, Params.isLarge_push_iff _ x.1 x.2 (pushAll_wf l _ Params.wf_new),
      ih, pushAll_list l _ Params.wf_new]
    have hnil : Params.new.list = [] := rfl
    rw [hnil]
    simp only [List.nil_append, List.length_map, List.length_append, List.length_singleton]
    omega

theorem Params.smallLenOk_of_wf (p : Params) (h : p.wf) : p.smallLenOk := by
  obtain ⟨kind⟩ := p
  cases kind with
  | small arr len => exact h.2
  | large vec => trivial

/-- C7: for every parameter list built by any sequence of `push(key, value)`
calls and every lookup key `k`, `Params::get(k)` returns `Some(v)` where
`(k, v)` is the earliest pushed pair whose key equals `k`, and `None` when
no pushed pair has key `k`. -/
theorem params_get_first_match (l : List (String × String)) (k : String) :
    (pushAll Params.new l).get k = (l.find? (fun kv => kv.1 == k)).map Prod.snd := by
  rw [Params.get_eq_list, pushAll_list l Params.new Params.wf_new]
  have hnil : Params.new.list = [] := rfl
  rw [hnil, List.nil_append, List.find?_map, Option.map_map]
  rfl

/-- C8: for every parameter list built by any sequence of `push` calls,
iterating with `ParamsIter` (repeatedly calling `next`, whose full output
sequence is `ParamsIter.toList`) yields exactly the pushed pairs in push
order, in both the small and the large representation. -/
theorem params_iter_order :
    (∀ l : List (String × String), (ParamsIter.new (pushAll Params.new l)).toList = l) ∧
    (∀ it : ParamsIter,
      it.toList = (match it.next with | none => [] | some x => x.1 :: x.2.toList)) := by
  refine ⟨fun l => ?_, ParamsIter.toList_eq_next⟩
  rw [ParamsIter.new_toList, pushAll_list l Params.new Params.wf_new]
  have hnil : Params.new.list = [] := rfl
  rw [hnil, List.nil_append, List.map_map]
  exact (List.map_congr_left (fun a _ => rfl)).trans (List.map_id l)

/-- C10: starting from `Params::new`, after any sequence of pushes the
small-representation length is at most `SMALL`; a further push preserves
all pushed pairs in order (writing in bounds at index `len`), and it
converts to the `Large` representation exactly when `SMALL` pairs are
already stored. -/
theorem params_small_invariant (l : List (String × String)) (k v : String) :
    (pushAll Params.new l).smallLenOk ∧
    ((pushAll Params.new l).push k v).list = (pushAll Params.new l).list ++ [⟨k, v⟩] ∧
    (((pushAll Params.new l).push k v).isLarge = true ↔ SMALL ≤ l.length) := by
  have hwf : (pushAll Params.new l).wf := pushAll_wf l Params.new Params.wf_new
  refine ⟨Params.smallLenOk_of_wf _ hwf, Params.list_push _ k v hwf, ?_⟩
  have hsnoc : (pushAll Params.new l).push k v = pushAll Params.new (l ++ [(k, v)]) :=
    (pushAll_snoc l Params.new (k, v)).symm
  rw [hsnoc, isLarge_pushAll_iff]
  simp only [List.length_append, List.length_singleton]
  omega

/-! ## Lemmas about the modelled tree -/

theorem better_self : ∀ s : List Seg, better s s = false
  | [] => rfl
  | p :: ps => by simp [better, better_self ps]

theorem parseSeg_static_eq (s c : List Char) (h : parseSeg s = .static c) : c = s := by
  unfold parseSeg at h
  split at h
  · exact absurd h (by simp)
  · exact absurd h (by simp)
  · exact (Seg.static.injEq _ _ ▸ h).symm

theorem segsMatch_static_self : ∀ ss : List (List Char),
    segsMatch (ss.map Seg.static) ss = some []
  | [] => rfl
  | s :: rest => by simp [segsMatch, segsMatch_static_self rest]

theorem segsMatch_nil_path : ∀ (qs : List Seg) (ps0 : ParamsL),
    segsMatch qs [] = some ps0 → qs = [] := by
  intro qs ps0 h
  match qs with
  | [] => rfl
  | .static s :: qs' => exact absurd h (by simp [segsMatch])
  | .param n :: qs' => exact absurd h (by simp [segsMatch])
  | .catchAll n :: qs' => cases qs' <;> exact absurd h (by simp [segsMatch])

theorem static_best : ∀ (path : List (List Char)) (qs : List Seg) (ps0 : ParamsL),
    segsMatch qs path = some ps0 → qs ≠ path.map Seg.static →
    better (path.map Seg.static) qs = true ∧ better qs (path.map Seg.static) = false := by
  intro path
  induction path with
  | nil =>
    intro qs ps0 h hne
    exact absurd (segsMatch_nil_path qs ps0 h) hne
  | cons s rest ih =>
    intro qs ps0 h hne
    match qs with
    | [] => exact absurd h (by simp [segsMatch])
    | .static t :: qs' =>
      rw [segsMatch] at h
      split at h
      · rename_i hts
        subst hts
        have hne' : qs' ≠ rest.map Seg.static := by
          intro hq; exact hne (by rw [hq, List.map_cons])
        have := ih qs' ps0 h hne'
        simpa [better, rank] using this
      · exact absurd h (by simp)
    | .param n :: qs' => simp [better, rank]
    | .catchAll n :: qs' => simp [better, rank]

theorem mem_matchersOf {α : Type} {r : NodeT α} {path : List (List Char)}
    {rt : Route α} {ps : ParamsL} :
    (rt, ps) ∈ matchersOf r path ↔ rt ∈ r ∧ segsMatch rt.segs path = some ps := by
  simp only [matchersOf, List.mem_filterMap, Option.map_eq_some']
  constructor
  · rintro ⟨a, ha, ps', hm, heq⟩
    obtain ⟨rfl, rfl⟩ : a = rt ∧ ps' = ps := by
      exact ⟨congrArg Prod.fst heq, congrArg Prod.snd heq⟩
    exact ⟨ha, hm⟩
  · rintro ⟨hmem, hm⟩
    exact ⟨rt, hmem, ps, hm, rfl⟩

theorem pickBest_isSome {α : Type} {l : List (Route α × ParamsL)}
    (h : l ≠ []) : (pickBest l).isSome = true := by
  cases l with
  | nil => exact absurd rfl h
  | cons x xs => rfl

theorem pickBestAux_eq {α : Type} (x : Route α × ParamsL) :
    ∀ (l : List (Route α × ParamsL)) (b : Route α × ParamsL),
    (b = x ∨ (better x.1.segs b.1.segs = true ∧ x ∈ l)) →
    (∀ y ∈ l, y.1.segs = x.1.segs → y = x) →
    (∀ y ∈ l, y.1.segs ≠ x.1.segs →
      better x.1.segs y.1.segs = true ∧ better y.1.segs x.1.segs = false) →
    pickBestAux b l = x := by
  intro l
  induction l with
  | nil =>
    intro b hb _ _
    rcases hb with rfl | ⟨_, hmem⟩
    · rfl
    · exact absurd hmem (List.not_mem_nil x)
  | cons c cs ih =>
    intro b hb huniq hdom
    rw [pickBestAux]
    have huniq' : ∀ y ∈ cs, y.1.segs = x.1.segs → y = x :=
      fun y hy => huniq y (List.mem_cons_of_mem c hy)
    have hdom' : ∀ y ∈ cs, y.1.segs ≠ x.1.segs →
        better x.1.segs y.1.segs = true ∧ better y.1.segs x.1.segs = false :=
      fun y hy => hdom y (List.mem_cons_of_mem c hy)
    apply ih
    · rcases hb with hbx | ⟨hxb, hmem⟩
      · subst hbx
        left
        by_cases hcx : c.1.segs = b.1.segs
        · have hc : c = b := huniq c (List.mem_cons_self c cs) hcx
          subst hc
          simp [better_self]
        · have hcf : better c.1.segs b.1.segs = false :=
            (hdom c (List.mem_cons_self c cs) hcx).2
          simp [hcf]
      · by_cases hcx : c.1.segs = x.1.segs
        · have hc : c = x := huniq c (List.mem_cons_self c cs) hcx
          subst hc
          left
          simp [hxb]
        · rcases List.mem_cons.mp hmem with hxc | hmem'
          · exact absurd (congrArg (fun z => Prod.fst z |>.segs) hxc).symm hcx
          · right
            refine ⟨?_, hmem'⟩
            split
            · exact (hdom c (List.mem_cons_self c cs) hcx).1
            · exact hxb
    · exact huniq'
    · exact hdom'

theorem pickBest_eq {α : Type} (x : Route α × ParamsL)
    (l : List (Route α × ParamsL)) (hmem : x ∈ l)
    (huniq : ∀ y ∈ l, y.1.segs = x.1.segs → y = x)
    (hdom : ∀ y ∈ l, y.1.segs ≠ x.1.segs →
      better x.1.segs y.1.segs = true ∧ better y.1.segs x.1.segs = false) :
    pickBest l = some x := by
  cases l with
  | nil => exact absurd hmem (List.not_mem_nil x)
  | cons e es =>
    rw [pickBest]
    congr 1
    apply pickBestAux_eq x es e
    · rcases List.mem_cons.mp hmem with rfl | hmem'
      · exact Or.inl rfl
      · by_cases hex : e.1.segs = x.1.segs
        · exact Or.inl (huniq e (List.mem_cons_self e es) hex)
        · exact Or.inr ⟨(hdom e (List.mem_cons_self e es) hex).1, hmem'⟩
    · exact fun y hy => huniq y (List.mem_cons_of_mem e hy)
    · exact fun y hy => hdom y (List.mem_cons_of_mem e hy)

theorem nodeInsert_ok {α : Type} {r : NodeT α} {pat : List Char} {v : α} {res : NodeT α}
    (h : nodeInsert r pat v = (.ok (), res)) :
    res = r ++ [⟨parsePattern pat, v⟩] ∧ ∀ rt ∈ r, rt.segs ≠ parsePattern pat := by
  unfold nodeInsert at h
  split_ifs at h with h1 h2 h3
  · exact absurd (congrArg Prod.fst h) (by simp)
  · exact absurd (congrArg Prod.fst h) (by simp)
  · exact absurd (congrArg Prod.fst h) (by simp)
  · refine ⟨(congrArg Prod.snd h).symm, fun rt hrt heq => ?_⟩
    exact h2 (List.any_eq_true.mpr ⟨rt, hrt, decide_eq_true heq⟩)

theorem parsePattern_static {pat : List Char}
    (hstatic : ∀ sg ∈ parsePattern pat, isStatic sg = true) :
    parsePattern pat = (splitPath pat).map Seg.static := by
  unfold parsePattern
  apply List.map_congr_left
  intro s hs
  have h1 : isStatic (parseSeg s) = true :=
    hstatic _ (List.mem_map_of_mem parseSeg hs)
  cases hps : parseSeg s with
  | static c => exact congrArg Seg.static (parseSeg_static_eq s c hps)
  | param n => rw [hps] at h1; exact absurd h1 (by simp [isStatic])
  | catchAll n => rw [hps] at h1; exact absurd h1 (by simp [isStatic])

/-- C1: for every route pattern containing no parameter or catch-all
segments, after a successful insert of that pattern with value `v`,
looking the pattern itself up as a path returns `Ok` with value `v` and
an empty parameter list. -/
theorem static_insert_roundtrip {α : Type} (r r2 : RouterS α) (pat : List Char) (v : α)
    (hstatic : ∀ sg ∈ parsePattern pat, isStatic sg = true)
    (hok : r.insert pat v = (.ok (), r2)) :
    r2.atPath pat = .ok ⟨v, []⟩ := by
  have hok1 : (nodeInsert r.root pat v).1 = .ok () := congrArg Prod.fst hok
  have hok2 : RouterS.mk (nodeInsert r.root pat v).2 = r2 := congrArg Prod.snd hok
  have hni : nodeInsert r.root pat v = (.ok (), (nodeInsert r.root pat v).2) := by
    conv_lhs => rw [show nodeInsert r.root pat v =
      ((nodeInsert r.root pat v).1, (nodeInsert r.root pat v).2) from rfl]
    rw [hok1]
  obtain ⟨hres, hnodup⟩ := nodeInsert_ok hni
  have hroot : r2.root = r.root ++ [⟨parsePattern pat, v⟩] := by
    rw [← hok2]
    exact hres
  have hsegs : parsePattern pat = (splitPath pat).map Seg.static :=
    parsePattern_static hstatic
  have hmatch_self : segsMatch (parsePattern pat) (splitPath pat) = some [] := by
    rw [hsegs]
    exact segsMatch_static_self _
  have hx_mem : ((⟨parsePattern pat, v⟩ : Route α), ([] : ParamsL)) ∈
      matchersOf r2.root (splitPath pat) := by
    refine mem_matchersOf.mpr ⟨?_, hmatch_self⟩
    rw [hroot]
    exact List.mem_append_right _ (List.mem_singleton.mpr rfl)
  have hpick : pickBest (matchersOf r2.root (splitPath pat)) =
      some (⟨parsePattern pat, v⟩, []) := by
    apply pickBest_eq _ _ hx_mem
    · rintro ⟨yrt, yps⟩ hy hseq
      obtain ⟨hymem, hym⟩ := mem_matchersOf.mp hy
      have hseq' : yrt.segs = parsePattern pat := hseq
      have hyrt : yrt = ⟨parsePattern pat, v⟩ := by
        rw [hroot] at hymem
        rcases List.mem_append.mp hymem with hin | hone
        · exact absurd hseq' (hnodup yrt hin)
        · exact List.mem_singleton.mp hone
      subst hyrt
      have hyps : yps = [] := by
        rw [hym] at hmatch_self
        exact Option.some.inj hmatch_self
      rw [hyps]
    · rintro ⟨yrt, yps⟩ hy hne
      obtain ⟨hymem, hym⟩ := mem_matchersOf.mp hy
      have hne' : yrt.segs ≠ (splitPath pat).map Seg.static := by
        rw [← hsegs]
        exact hne
      have hbest := static_best (splitPath pat) yrt.segs yps hym hne'
      constructor
      · show better (parsePattern pat) yrt.segs = true
        rw [hsegs]
        exact hbest.1
      · show better yrt.segs (parsePattern pat) = false
        rw [hsegs]
        exact hbest.2
  unfold RouterS.atPath nodeAt
  rw [hpick]

/-- Witness for C1 at the concrete route `/hello`. -/
theorem static_insert_roundtrip_witness :
    RouterS.atPath (((RouterS.new : RouterS Nat).insert (strChars "/hello") 7).2)
      (strChars "/hello") = .ok ⟨7, []⟩ :=
  static_insert_roundtrip (RouterS.new : RouterS Nat)
    (((RouterS.new : RouterS Nat).insert (strChars "/hello") 7).2)
    (strChars "/hello") 7 (by decide) rfl

/-- C2: inserting `/users/{id}` into an empty router, the path
`/users/42` matches with exactly the parameter pair `("id", "42")` and
no other keys. -/
theorem param_extraction_users_id :
    RouterS.atPath (((RouterS.new : RouterS Nat).insert (strChars "/users/{id}") 1).2)
      (strChars "/users/42") = .ok ⟨1, [(strChars "id", strChars "42")]⟩ :=
  rfl

/-- C3: re-inserting an already-registered pattern (with any value)
fails with a `Conflict` error and leaves the router exactly as it was,
so every lookup behaves as before the call. -/
theorem duplicate_insert_conflict {α : Type} (r : RouterS α) (pat : List Char) (v : α)
    (hcat : catchAllLast (parsePattern pat) = true)
    (hreg : ∃ rt ∈ r.root, rt.segs = parsePattern pat) :
    r.insert pat v = (.error .conflict, r) ∧
    ∀ path, ((r.insert pat v).2).atPath path = r.atPath path := by
  obtain ⟨rt, hrt, hseq⟩ := hreg
  have hany : r.root.any (fun rt => decide (rt.segs = parsePattern pat)) = true :=
    List.any_eq_true.mpr ⟨rt, hrt, decide_eq_true hseq⟩
  have hnode : nodeInsert r.root pat v = (.error .conflict, r.root) := by
    unfold nodeInsert
    rw [if_neg (by simp [hcat]), if_pos hany]
  have hfst : r.insert pat v = (.error .conflict, r) := by
    unfold RouterS.insert
    rw [hnode]
  refine ⟨hfst, fun path => ?_⟩
  rw [hfst]

/-- Witness for C3: `/a` inserted twice. -/
theorem duplicate_insert_conflict_witness :
    RouterS.insert (((RouterS.new : RouterS Nat).insert (strChars "/a") 1).2)
      (strChars "/a") 2 =
      (.error .conflict, ((RouterS.new : RouterS Nat).insert (strChars "/a") 1).2) :=
  (duplicate_insert_conflict (((RouterS.new : RouterS Nat).insert (strChars "/a") 1).2)
    (strChars "/a") 2 (by decide) (by decide)).1

/-- The claim of C4 is refuted by `slashRouter`: `/foo` is registered
and `/foo/` is not, yet looking up `/foo/` does not fail at all — the
parameter route `/{x}/` matches it, returning its value with
`x = "foo"`. -/
theorem trailing_slash_claim_cex :
    (∃ rt ∈ slashRouter.root, rt.segs = parsePattern (strChars "/foo")) ∧
    (∀ rt ∈ slashRouter.root, ¬ rt.segs = parsePattern (strChars "/foo/")) ∧
    slashRouter.atPath (strChars "/foo/") = .ok ⟨2, [(strChars "x", strChars "foo")]⟩ :=
  ⟨by decide, by decide, rfl⟩

theorem atPath_error {α : Type} {r : RouterS α} {p : List Char} {e : MatchError}
    (h : r.atPath p = .error e) :
    e = ⟨(pickBest (matchersOf r.root (splitPath (toggleSlash p)))).isSome⟩ := by
  unfold RouterS.atPath at h
  cases hn : nodeAt r.root p with
  | ok x =>
    obtain ⟨xv, xps⟩ := x
    rw [hn] at h
    exact absurd h (by simp)
  | error e0 =>
    rw [hn] at h
    injection h with h'
    unfold nodeAt at hn
    cases hp : pickBest (matchersOf r.root (splitPath p)) with
    | some y =>
      obtain ⟨yr, yps⟩ := y
      rw [hp] at hn
      exact absurd hn (by simp)
    | none =>
      rw [hp] at hn
      injection hn with hn'
      rw [← h', ← hn']

theorem registered_static_matches {α : Type} (r : NodeT α) (p : List Char)
    (hreg : ∃ rt ∈ r, rt.segs = (splitPath p).map Seg.static) :
    (pickBest (matchersOf r (splitPath p))).isSome = true := by
  obtain ⟨rt, hrt, hsegs⟩ := hreg
  have hm : segsMatch rt.segs (splitPath p) = some [] := by
    rw [hsegs]
    exact segsMatch_static_self _
  have hmem : (rt, ([] : ParamsL)) ∈ matchersOf r (splitPath p) :=
    mem_matchersOf.mpr ⟨hrt, hm⟩
  exact pickBest_isSome (List.ne_nil_of_mem hmem)

/-- C4 amended: matching `/foo/` when `/foo` is registered (resp.
`/foo` when `/foo/` is registered) need not fail — another route may
match the queried path — but whenever it does fail, the error carries
the trailing-slash redirect hint; and when only the one route is
registered, the lookup does fail with the hint set. -/
theorem trailing_slash_hint_amended {α : Type} (r : RouterS α) (v : α) (e e2 : MatchError) :
    ((∃ rt ∈ r.root, rt.segs = parsePattern (strChars "/foo")) →
      r.atPath (strChars "/foo/") = .error e → e.tsr = true) ∧
    ((∃ rt ∈ r.root, rt.segs = parsePattern (strChars "/foo/")) →
      r.atPath (strChars "/foo") = .error e2 → e2.tsr = true) ∧
    RouterS.atPath (((RouterS.new : RouterS α).insert (strChars "/foo") v).2)
      (strChars "/foo/") = .error ⟨true⟩ ∧
    RouterS.atPath (((RouterS.new : RouterS α).insert (strChars "/foo/") v).2)
      (strChars "/foo") = .error ⟨true⟩ := by
  refine ⟨?_, ?_, rfl, rfl⟩
  · intro hreg herr
    rw [atPath_error herr]
    have htog : toggleSlash (strChars "/foo/") = strChars "/foo" := rfl
    rw [htog]
    apply registered_static_matches
    have hps : parsePattern (strChars "/foo") = (splitPath (strChars "/foo")).map Seg.static :=
      rfl
    exact hps ▸ hreg
  · intro hreg herr
    rw [atPath_error herr]
    have htog : toggleSlash (strChars "/foo") = strChars "/foo/" := rfl
    rw [htog]
    apply registered_static_matches
    have hps : parsePattern (strChars "/foo/") =
        (splitPath (strChars "/foo/")).map Seg.static := rfl
    exact hps ▸ hreg

/-- Witness for the amended C4: with only `/foo` registered, looking up
`/foo/` fails with the trailing-slash hint set. -/
theorem trailing_slash_hint_amended_witness :
    RouterS.atPath (((RouterS.new : RouterS Nat).insert (strChars "/foo") 1).2)
      (strChars "/foo/") = .error ⟨true⟩ :=
  (trailing_slash_hint_amended (RouterS.new : RouterS Nat) 1 ⟨true⟩ ⟨true⟩).2.2.1

/-- C5: inserting `/users/{id}` and `/users/new` in either order gives
the same dispatch — `/users/new` hits the static route, `/users/42`
hits the parameter route with `("id", "42")`. -/
theorem insertion_order_independent :
    usersIdFirst.atPath (strChars "/users/new") = .ok ⟨2, []⟩ ∧
    usersNewFirst.atPath (strChars "/users/new") = .ok ⟨2, []⟩ ∧
    usersIdFirst.atPath (strChars "/users/42") =
      .ok ⟨1, [(strChars "id", strChars "42")]⟩ ∧
    usersNewFirst.atPath (strChars "/users/42") =
      .ok ⟨1, [(strChars "id", strChars "42")]⟩ :=
  ⟨rfl, rfl, rfl, rfl⟩

theorem nodeRemoveSegs_none {α : Type} :
    ∀ (l : NodeT α) (segs : List Seg), (∀ rt ∈ l, rt.segs ≠ segs) →
      nodeRemoveSegs l segs = (none, l)
  | [], _, _ => rfl
  | rt :: rest, segs, h => by
    rw [nodeRemoveSegs]
    rw [if_neg (h rt (List.mem_cons_self rt rest))]
    rw [nodeRemoveSegs_none rest segs (fun y hy => h y (List.mem_cons_of_mem rt hy))]

/-- C6: removing a pattern that is not registered returns `None` and
leaves the router exactly as it was, so every lookup behaves as before
the call. -/
theorem remove_missing_noop {α : Type} (r : RouterS α) (pat : List Char)
    (h : ∀ rt ∈ r.root, rt.segs ≠ parsePattern pat) :
    r.removePath pat = (none, r) ∧
    ∀ path, ((r.removePath pat).2).atPath path = r.atPath path := by
  have hnode : nodeRemoveSegs r.root (parsePattern pat) = (none, r.root) :=
    nodeRemoveSegs_none r.root (parsePattern pat) h
  have hfst : r.removePath pat = (none, r) := by
    unfold RouterS.removePath nodeRemove
    rw [hnode]
  refine ⟨hfst, fun path => ?_⟩
  rw [hfst]

/-- Witness for C6: removing the never-inserted `/b` from a router
holding `/a`. -/
theorem remove_missing_noop_witness :
    RouterS.removePath (((RouterS.new : RouterS Nat).insert (strChars "/a") 1).2)
      (strChars "/b") =
      (none, ((RouterS.new : RouterS Nat).insert (strChars "/a") 1).2) :=
  (remove_missing_noop (((RouterS.new : RouterS Nat).insert (strChars "/a") 1).2)
    (strChars "/b") (by decide)).1

/-- C9: the shared-access lookup `at` and the exclusive-access lookup
`at_mut` agree on every router and path: both delegate to the same
`Node::at` over the same tree, so they succeed or fail identically,
with the same value and parameters. -/
theorem at_agrees_at_mut {α : Type} (r : RouterS α) (path : List Char) :
    r.atPath path = r.atPathMut path :=
  rfl

end Matchit
